import Mathlib

/-!
Shallow embedding of the archive extractor in `render_app.py`.

Paths are modelled POSIX-style: an absolute path is the list of its
components from the root (`/d/site` is `["d", "site"]`).  Entry names are
slash-separated strings, exactly as stored in the archive.  The filesystem
is explicit state: a set of directories, a map from paths to file contents
and a map from paths to permission bits, each represented as a list whose
most recent binding wins.  `Path.resolve()` is modelled lexically (no
symlinks): empty and `.` components vanish, `..` pops one component.
-/

/-- Split a character list at every slash, mirroring Python `str.split('/')`:
the result always has at least one (possibly empty) piece. -/
def splitPathCh : List Char → List (List Char)
  | [] => [[]]
  | c :: cs =>
    if c = '/' then [] :: splitPathCh cs
    else
      match splitPathCh cs with
      | [] => [[c]]
      | s :: ss => (c :: s) :: ss

/-- Python `s.split('/')` on a string. -/
def splitPath (s : String) : List String := (splitPathCh s.data).map String.mk

/-- Python `s.startswith(p)`. -/
def strStartsWith (s p : String) : Bool := p.data.isPrefixOf s.data

/-- Python `s.endswith(p)`. -/
def strEndsWith (s p : String) : Bool := p.data.isSuffixOf s.data

/-- Python `s[n:]`. -/
def strDrop (s : String) (n : Nat) : String := String.mk (s.data.drop n)

/-- Python `len(s)` (number of code points). -/
def strLen (s : String) : Nat := s.data.length

/-- Lexical `Path.resolve()` on raw slash-separated components of an
absolute path: drops empty and `.` components and lets `..` pop one
component (at the root it stays at the root). -/
def resolveComponents (cs : List String) : List String :=
  cs.foldl
    (fun acc c =>
      if c = "" ∨ c = "." then acc
      else if c = ".." then acc.dropLast
      else acc ++ [c])
    []

/-- Python `str(path)` for an absolute path given by its resolved components. -/
def pathStr (cs : List String) : String := "/" ++ String.intercalate "/" cs

/-- Python `dest_dir.joinpath(member_name)`: an absolute name replaces the
base, a relative name is appended component-wise (components are still raw:
they may contain `..`, `.` or empty pieces until resolution). -/
def joinpath (dest : List String) (name : String) : List String :=
  if strStartsWith name "/" then splitPath name else dest ++ splitPath name

/-- Source `is_within_directory`: resolve both paths and compare their
string forms with a raw `startswith` (the source's exception branch is
unreachable in this lexical model). -/
def is_within_directory (directory target : List String) : Bool :=
  strStartsWith (pathStr (resolveComponents target)) (pathStr (resolveComponents directory))

/-- Modelled from the spec (section 9): component-wise path containment —
the target equals the destination or is a descendant via proper segment
decomposition, never a raw string comparison. -/
def componentWiseWithin (directory target : List String) : Bool :=
  directory.isPrefixOf target

/-- One archive entry: its stored name, the raw `external_attr` word and
its content bytes. -/
structure ZipEntry where
  filename : String
  external_attr : Nat
  content : List Nat
deriving DecidableEq, Repr

/-- Explicit filesystem state: directories, file contents and permission
bits.  The lists act as maps whose most recent (leftmost) binding wins. -/
structure FS where
  dirs : List (List String)
  files : List (List String × List Nat)
  perms : List (List String × Nat)
deriving DecidableEq, Repr

/-- All ancestors of a path, the path itself and the root included. -/
def pathPrefixes (p : List String) : List (List String) :=
  (List.range (p.length + 1)).map fun k => p.take k

/-- Python `path.mkdir(parents=True, exist_ok=True)`. -/
def FS.mkdirParents (fs : FS) (p : List String) : FS :=
  { fs with dirs := pathPrefixes p ++ fs.dirs }

/-- Python `path.exists()`. -/
def FS.existsPath (fs : FS) (p : List String) : Bool :=
  fs.dirs.contains p || fs.files.any fun e => e.1 == p

/-- Writing a file: the new binding shadows any older one. -/
def FS.setFile (fs : FS) (p : List String) (c : List Nat) : FS :=
  { fs with files := (p, c) :: fs.files }

/-- Applying permission bits to a path. -/
def FS.setPerm (fs : FS) (p : List String) (m : Nat) : FS :=
  { fs with perms := (p, m) :: fs.perms }

/-- Content of the file at a path, if any. -/
def FS.lookupFile (fs : FS) (p : List String) : Option (List Nat) :=
  (fs.files.find? fun e => e.1 == p).map fun e => e.2

/-- Permission bits recorded for a path, if any. -/
def FS.lookupPerm (fs : FS) (p : List String) : Option Nat :=
  (fs.perms.find? fun e => e.1 == p).map fun e => e.2

/-- Source filter `p.filename and not p.filename.endswith('/')`: the entry
names that take part in the common-root computation. -/
def fileNamed (p : ZipEntry) : Bool :=
  p.filename != "" && !(strEndsWith p.filename "/")

/-- Source `p.filename.split('/')[0]`. -/
def topSeg (s : String) : String := (splitPath s).headD ""

/-- Source common-root computation: the set of first segments of all
file-entry names; if it is a singleton, that segment plus a separator. -/
def computeCommonRoot (keep_root : Bool) (members : List ZipEntry) : String :=
  if keep_root then ""
  else
    match ((members.filter fileNamed).map fun p => topSeg p.filename).dedup with
    | [t] => t ++ "/"
    | _ => ""

/-- Source stripping step: `if common_root and member_name.startswith(common_root)`. -/
def stripRoot (common_root name : String) : String :=
  if common_root ≠ "" ∧ strStartsWith name common_root = true then
    strDrop name (strLen common_root)
  else name

/-- Python `ZipInfo.is_dir()`: the stored name ends with a slash. -/
def ZipEntry.isDirEntry (m : ZipEntry) : Bool := strEndsWith m.filename "/"

/-- Source `(member.external_attr >> 16) & 0o777`. -/
def unixAttr (m : ZipEntry) : Nat := (m.external_attr >>> 16) &&& 511

/-- Body of the per-entry loop of `safe_extract`.  `chmodOk` says whether a
`chmod` call on a given path with given bits succeeds; its failure is
swallowed by the source's bare `except`.  The second component is `some`
of the offending original entry name when the containment check fails. -/
def processEntry (dest_dir : List String) (overwrite : Bool) (common_root : String)
    (chmodOk : List String → Nat → Bool) (fs : FS) (member : ZipEntry) :
    FS × Option String :=
  let member_name := stripRoot common_root member.filename
  if member_name = "" then (fs, none)
  else
    let target_path := joinpath dest_dir member_name
    if is_within_directory dest_dir target_path = false then
      (fs, some member.filename)
    else if member.isDirEntry then
      (fs.mkdirParents (resolveComponents target_path), none)
    else
      let fs1 := fs.mkdirParents (resolveComponents target_path).dropLast
      if fs1.existsPath (resolveComponents target_path) ∧ overwrite = false then
        (fs1, none)
      else
        let fs2 := fs1.setFile (resolveComponents target_path) member.content
        if unixAttr member ≠ 0 ∧ chmodOk (resolveComponents target_path) (unixAttr member) = true then
          (fs2.setPerm (resolveComponents target_path) (unixAttr member), none)
        else (fs2, none)

/-- The extraction loop: stop at the first entry whose containment check
fails, carrying the filesystem state reached so far. -/
def extractLoop (dest_dir : List String) (overwrite : Bool) (common_root : String)
    (chmodOk : List String → Nat → Bool) : FS → List ZipEntry → FS × Option String
  | fs, [] => (fs, none)
  | fs, member :: rest =>
    match processEntry dest_dir overwrite common_root chmodOk fs member with
    | (fs1, none) => extractLoop dest_dir overwrite common_root chmodOk fs1 rest
    | (fs1, some e) => (fs1, some e)

/-- Source `safe_extract`: compute the common root, then process every
entry in stored order. -/
def safe_extract (members : List ZipEntry) (dest_dir : List String)
    (overwrite keep_root : Bool) (chmodOk : List String → Nat → Bool) (fs : FS) :
    FS × Option String :=
  extractLoop dest_dir overwrite (computeCommonRoot keep_root members) chmodOk fs members

/-- Python `request.args.get(key, dflt)` over a query-parameter list. -/
def argsGet (args : List (String × String)) (key dflt : String) : String :=
  ((args.find? fun q => q.1 == key).map fun q => q.2).getD dflt

/-- Python `s.lower()`, lowering character by character. -/
def strToLower (s : String) : String := String.mk (s.data.map Char.toLower)

/-- Source `request.args.get('overwrite', 'false').lower() == 'true'`. -/
def upload_overwrite (args : List (String × String)) : Bool :=
  strToLower (argsGet args "overwrite" "false") == "true"

/-- Source `request.args.get('keep_root', 'false').lower() == 'true'`. -/
def upload_keep_root (args : List (String × String)) : Bool :=
  strToLower (argsGet args "keep_root" "false") == "true"

/-!
Derived per-entry analysis: how one entry behaves, read off from
`processEntry`.
-/

/-- Effective name of an entry after common-root stripping. -/
def effName (common_root : String) (m : ZipEntry) : String :=
  stripRoot common_root m.filename

/-- An entry passes the loop without raising: its effective name is empty
(skip) or its target passes the containment check. -/
def entryOk (dest : List String) (common_root : String) (m : ZipEntry) : Bool :=
  (effName common_root m == "") ||
    is_within_directory dest (joinpath dest (effName common_root m))

/-- Resolved target path of an entry. -/
def entryTarget (dest : List String) (common_root : String) (m : ZipEntry) : List String :=
  resolveComponents (joinpath dest (effName common_root m))

/-- An entry reaches the file-writing branch: nonempty effective name,
containment check passed, not a directory entry. -/
def writesFile (dest : List String) (common_root : String) (m : ZipEntry) : Bool :=
  !(effName common_root m == "") &&
    is_within_directory dest (joinpath dest (effName common_root m)) &&
    !m.isDirEntry

/-- Directories one entry creates. -/
def entryDirs (dest : List String) (common_root : String) (m : ZipEntry) : List (List String) :=
  if effName common_root m == "" then []
  else if is_within_directory dest (joinpath dest (effName common_root m)) = false then []
  else if m.isDirEntry then pathPrefixes (entryTarget dest common_root m)
  else pathPrefixes (entryTarget dest common_root m).dropLast

/-! Elementary filesystem lemmas. -/

theorem lookupFile_setFile (fs : FS) (p q : List String) (c : List Nat) :
    (fs.setFile p c).lookupFile q = if p = q then some c else fs.lookupFile q := by
  by_cases h : p = q
  · subst h; simp [FS.setFile, FS.lookupFile]
  · simp [FS.setFile, FS.lookupFile, List.find?_cons_of_neg, h]

theorem lookupFile_mkdirParents (fs : FS) (p q : List String) :
    (fs.mkdirParents p).lookupFile q = fs.lookupFile q := rfl

theorem lookupFile_setPerm (fs : FS) (p q : List String) (a : Nat) :
    (fs.setPerm p a).lookupFile q = fs.lookupFile q := rfl

theorem mem_dirs_mkdirParents (fs : FS) (p q : List String) :
    (q ∈ (fs.mkdirParents p).dirs) ↔ (q ∈ pathPrefixes p ∨ q ∈ fs.dirs) := by
  simp [FS.mkdirParents]

theorem existsPath_mkdirParents (fs : FS) (p q : List String)
    (h : fs.existsPath q = true) : (fs.mkdirParents p).existsPath q = true := by
  simp only [FS.existsPath, FS.mkdirParents, Bool.or_eq_true] at h ⊢
  rcases h with h | h
  · left
    simp only [List.contains_eq_any_beq, List.any_append, Bool.or_eq_true] at h ⊢
    exact Or.inr h
  · exact Or.inr h

theorem existsPath_setFile (fs : FS) (p q : List String) (c : List Nat)
    (h : fs.existsPath q = true) : (fs.setFile p c).existsPath q = true := by
  simp only [FS.existsPath, FS.setFile, Bool.or_eq_true, List.any_cons] at h ⊢
  rcases h with h | h
  · exact Or.inl h
  · exact Or.inr (Or.inr h)

theorem existsPath_setPerm (fs : FS) (p q : List String) (a : Nat)
    (h : fs.existsPath q = true) : (fs.setPerm p a).existsPath q = true := h

theorem existsPath_setFile_self (fs : FS) (p : List String) (c : List Nat) :
    (fs.setFile p c).existsPath p = true := by
  simp [FS.existsPath, FS.setFile]

section ExtractionLemmas

variable (dest : List String) (ov : Bool) (cr : String) (ch : List String → Nat → Bool)

theorem processEntry_emptyName (fs : FS) (m : ZipEntry)
    (h : stripRoot cr m.filename = "") :
    processEntry dest ov cr ch fs m = (fs, none) := by
  unfold processEntry
  simp [h]

theorem processEntry_reject (fs : FS) (m : ZipEntry)
    (h1 : stripRoot cr m.filename ≠ "")
    (h2 : is_within_directory dest (joinpath dest (stripRoot cr m.filename)) = false) :
    processEntry dest ov cr ch fs m = (fs, some m.filename) := by
  unfold processEntry
  simp [h1, h2]

theorem processEntry_dir (fs : FS) (m : ZipEntry)
    (h1 : stripRoot cr m.filename ≠ "")
    (h2 : is_within_directory dest (joinpath dest (stripRoot cr m.filename)) = true)
    (h3 : m.isDirEntry = true) :
    processEntry dest ov cr ch fs m =
      (fs.mkdirParents (entryTarget dest cr m), none) := by
  unfold processEntry
  simp [h1, h2, h3, entryTarget, effName]

theorem processEntry_file_skip (fs : FS) (m : ZipEntry)
    (h1 : stripRoot cr m.filename ≠ "")
    (h2 : is_within_directory dest (joinpath dest (stripRoot cr m.filename)) = true)
    (h3 : m.isDirEntry = false)
    (h4 : (fs.mkdirParents (entryTarget dest cr m).dropLast).existsPath (entryTarget dest cr m) = true)
    (h5 : ov = false) :
    processEntry dest ov cr ch fs m =
      (fs.mkdirParents (entryTarget dest cr m).dropLast, none) := by
  unfold processEntry
  simp only [entryTarget, effName] at h4
  simp [h1, h2, h3, h4, h5, entryTarget, effName]

theorem processEntry_file_write (fs : FS) (m : ZipEntry)
    (h1 : stripRoot cr m.filename ≠ "")
    (h2 : is_within_directory dest (joinpath dest (stripRoot cr m.filename)) = true)
    (h3 : m.isDirEntry = false)
    (h4 : ¬ ((fs.mkdirParents (entryTarget dest cr m).dropLast).existsPath (entryTarget dest cr m) = true
              ∧ ov = false)) :
    processEntry dest ov cr ch fs m =
      (if unixAttr m ≠ 0 ∧ ch (entryTarget dest cr m) (unixAttr m) = true then
        (((fs.mkdirParents (entryTarget dest cr m).dropLast).setFile (entryTarget dest cr m) m.content).setPerm
          (entryTarget dest cr m) (unixAttr m), none)
      else
        ((fs.mkdirParents (entryTarget dest cr m).dropLast).setFile (entryTarget dest cr m) m.content,
          none)) := by
  unfold processEntry
  simp only [entryTarget, effName] at h4
  simp [h1, h2, h3, h4, entryTarget, effName]

theorem snd_processEntry (fs : FS) (m : ZipEntry) :
    (processEntry dest ov cr ch fs m).2 =
      if entryOk dest cr m = true then none else some m.filename := by
  unfold entryOk effName
  by_cases h1 : stripRoot cr m.filename = ""
  · rw [processEntry_emptyName dest ov cr ch fs m h1]
    simp [h1]
  by_cases h2 : is_within_directory dest (joinpath dest (stripRoot cr m.filename)) = true
  · rw [if_pos (by simp [h2])]
    by_cases h3 : m.isDirEntry = true
    · rw [processEntry_dir dest ov cr ch fs m h1 h2 h3]
    · rw [Bool.not_eq_true] at h3
      by_cases h4 : (fs.mkdirParents (entryTarget dest cr m).dropLast).existsPath (entryTarget dest cr m) = true
          ∧ ov = false
      · rw [processEntry_file_skip dest ov cr ch fs m h1 h2 h3 h4.1 h4.2]
      · rw [processEntry_file_write dest ov cr ch fs m h1 h2 h3 h4]
        by_cases h5 : unixAttr m ≠ 0 ∧ ch (entryTarget dest cr m) (unixAttr m) = true
        · rw [if_pos h5]
        · rw [if_neg h5]
  · rw [Bool.not_eq_true] at h2
    rw [processEntry_reject dest ov cr ch fs m h1 h2]
    simp [h1, h2]

end ExtractionLemmas

theorem dirs_setFile (fs : FS) (p : List String) (c : List Nat) :
    (fs.setFile p c).dirs = fs.dirs := rfl

theorem dirs_setPerm (fs : FS) (p : List String) (a : Nat) :
    (fs.setPerm p a).dirs = fs.dirs := rfl

section ExtractionLemmas2

variable (dest : List String) (ov : Bool) (cr : String) (ch : List String → Nat → Bool)

theorem lookupFile_processEntry_overwrite (fs : FS) (m : ZipEntry) (q : List String) :
    ((processEntry dest true cr ch fs m).1).lookupFile q =
      if writesFile dest cr m = true ∧ entryTarget dest cr m = q then some m.content
      else fs.lookupFile q := by
  by_cases h1 : stripRoot cr m.filename = ""
  · rw [processEntry_emptyName dest true cr ch fs m h1,
      if_neg (by simp [writesFile, effName, h1])]
  by_cases h2 : is_within_directory dest (joinpath dest (stripRoot cr m.filename)) = true
  · by_cases h3 : m.isDirEntry = true
    · rw [processEntry_dir dest true cr ch fs m h1 h2 h3,
        if_neg (by simp [writesFile, h3])]
      rfl
    · rw [Bool.not_eq_true] at h3
      have hw : writesFile dest cr m = true := by simp [writesFile, effName, h1, h2, h3]
      rw [processEntry_file_write dest true cr ch fs m h1 h2 h3 (by simp)]
      by_cases h5 : unixAttr m ≠ 0 ∧ ch (entryTarget dest cr m) (unixAttr m) = true
      · rw [if_pos h5]
        simp [lookupFile_setPerm, lookupFile_setFile, lookupFile_mkdirParents, hw]
      · rw [if_neg h5]
        simp [lookupFile_setFile, lookupFile_mkdirParents, hw]
  · rw [Bool.not_eq_true] at h2
    rw [processEntry_reject dest true cr ch fs m h1 h2,
      if_neg (by simp [writesFile, effName, h2])]

theorem mem_dirs_processEntry (fs : FS) (m : ZipEntry) (q : List String) :
    (q ∈ (processEntry dest ov cr ch fs m).1.dirs) ↔
      (q ∈ entryDirs dest cr m ∨ q ∈ fs.dirs) := by
  by_cases h1 : stripRoot cr m.filename = ""
  · rw [processEntry_emptyName dest ov cr ch fs m h1]
    simp [entryDirs, effName, h1]
  by_cases h2 : is_within_directory dest (joinpath dest (stripRoot cr m.filename)) = true
  · by_cases h3 : m.isDirEntry = true
    · rw [processEntry_dir dest ov cr ch fs m h1 h2 h3]
      simp [entryDirs, effName, h1, h2, h3, mem_dirs_mkdirParents]
    · rw [Bool.not_eq_true] at h3
      by_cases h4 : (fs.mkdirParents (entryTarget dest cr m).dropLast).existsPath (entryTarget dest cr m) = true
          ∧ ov = false
      · rw [processEntry_file_skip dest ov cr ch fs m h1 h2 h3 h4.1 h4.2]
        simp [entryDirs, effName, h1, h2, h3, mem_dirs_mkdirParents]
      · rw [processEntry_file_write dest ov cr ch fs m h1 h2 h3 h4]
        by_cases h5 : unixAttr m ≠ 0 ∧ ch (entryTarget dest cr m) (unixAttr m) = true
        · rw [if_pos h5]
          simp [entryDirs, effName, h1, h2, h3, FS.setPerm, FS.setFile, mem_dirs_mkdirParents]
        · rw [if_neg h5]
          simp [entryDirs, effName, h1, h2, h3, FS.setFile, mem_dirs_mkdirParents]
  · rw [Bool.not_eq_true] at h2
    rw [processEntry_reject dest ov cr ch fs m h1 h2]
    simp [entryDirs, effName, h1, h2]

theorem existsPath_processEntry (fs : FS) (m : ZipEntry) (q : List String)
    (h : fs.existsPath q = true) :
    (processEntry dest ov cr ch fs m).1.existsPath q = true := by
  by_cases h1 : stripRoot cr m.filename = ""
  · rw [processEntry_emptyName dest ov cr ch fs m h1]; exact h
  by_cases h2 : is_within_directory dest (joinpath dest (stripRoot cr m.filename)) = true
  · by_cases h3 : m.isDirEntry = true
    · rw [processEntry_dir dest ov cr ch fs m h1 h2 h3]
      exact existsPath_mkdirParents fs _ q h
    · rw [Bool.not_eq_true] at h3
      by_cases h4 : (fs.mkdirParents (entryTarget dest cr m).dropLast).existsPath (entryTarget dest cr m) = true
          ∧ ov = false
      · rw [processEntry_file_skip dest ov cr ch fs m h1 h2 h3 h4.1 h4.2]
        exact existsPath_mkdirParents fs _ q h
      · rw [processEntry_file_write dest ov cr ch fs m h1 h2 h3 h4]
        by_cases h5 : unixAttr m ≠ 0 ∧ ch (entryTarget dest cr m) (unixAttr m) = true
        · rw [if_pos h5]
          exact existsPath_setPerm _ _ _ _
            (existsPath_setFile _ _ _ _ (existsPath_mkdirParents fs _ q h))
        · rw [if_neg h5]
          exact existsPath_setFile _ _ _ _ (existsPath_mkdirParents fs _ q h)
  · rw [Bool.not_eq_true] at h2
    rw [processEntry_reject dest ov cr ch fs m h1 h2]; exact h

theorem existsPath_target_processEntry (fs : FS) (m : ZipEntry)
    (hw : writesFile dest cr m = true) :
    (processEntry dest ov cr ch fs m).1.existsPath (entryTarget dest cr m) = true := by
  have h1 : stripRoot cr m.filename ≠ "" := by
    intro hc; simp [writesFile, effName, hc] at hw
  have h2 : is_within_directory dest (joinpath dest (stripRoot cr m.filename)) = true := by
    by_contra hc; rw [Bool.not_eq_true] at hc; simp [writesFile, effName, hc] at hw
  have h3 : m.isDirEntry = false := by
    by_contra hc; rw [Bool.not_eq_false] at hc; simp [writesFile, hc] at hw
  by_cases h4 : (fs.mkdirParents (entryTarget dest cr m).dropLast).existsPath (entryTarget dest cr m) = true
      ∧ ov = false
  · rw [processEntry_file_skip dest ov cr ch fs m h1 h2 h3 h4.1 h4.2]
    exact h4.1
  · rw [processEntry_file_write dest ov cr ch fs m h1 h2 h3 h4]
    by_cases h5 : unixAttr m ≠ 0 ∧ ch (entryTarget dest cr m) (unixAttr m) = true
    · rw [if_pos h5]
      exact existsPath_setPerm _ _ _ _ (existsPath_setFile_self _ _ _)
    · rw [if_neg h5]
      exact existsPath_setFile_self _ _ _

end ExtractionLemmas2

section LoopLemmas

variable (dest : List String) (ov : Bool) (cr : String) (ch : List String → Nat → Bool)

theorem extractLoop_append (l1 l2 : List ZipEntry) (fs : FS) :
    extractLoop dest ov cr ch fs (l1 ++ l2) =
      match extractLoop dest ov cr ch fs l1 with
      | (fs1, none) => extractLoop dest ov cr ch fs1 l2
      | (fs1, some e) => (fs1, some e) := by
  induction l1 generalizing fs with
  | nil => simp [extractLoop]
  | cons m ms ih =>
    simp only [List.cons_append, extractLoop]
    rcases hp : processEntry dest ov cr ch fs m with ⟨fs1, r⟩
    cases r with
    | none => simpa using ih fs1
    | some e => simp

theorem snd_extractLoop_all_ok (ms : List ZipEntry)
    (h : ∀ m ∈ ms, entryOk dest cr m = true) (fs : FS) :
    (extractLoop dest ov cr ch fs ms).2 = none := by
  induction ms generalizing fs with
  | nil => simp [extractLoop]
  | cons m ms ih =>
    have hm : entryOk dest cr m = true := h m (List.mem_cons_self m ms)
    have hsnd := snd_processEntry dest ov cr ch fs m
    rw [hm, if_pos rfl] at hsnd
    rcases hp : processEntry dest ov cr ch fs m with ⟨fs1, r⟩
    rw [hp] at hsnd
    simp only at hsnd
    subst hsnd
    simp only [extractLoop, hp]
    exact ih (fun x hx => h x (List.mem_cons_of_mem m hx)) fs1

theorem extractLoop_ok_step (m : ZipEntry) (ms : List ZipEntry) (fs : FS)
    (hm : entryOk dest cr m = true) :
    extractLoop dest ov cr ch fs (m :: ms) =
      extractLoop dest ov cr ch (processEntry dest ov cr ch fs m).1 ms := by
  have hsnd := snd_processEntry dest ov cr ch fs m
  rw [hm, if_pos rfl] at hsnd
  rcases hp : processEntry dest ov cr ch fs m with ⟨fs1, r⟩
  rw [hp] at hsnd
  simp only at hsnd
  subst hsnd
  simp [extractLoop, hp]

theorem extractLoop_first_bad (pre : List ZipEntry) (b : ZipEntry) (rest : List ZipEntry)
    (hpre : ∀ m ∈ pre, entryOk dest cr m = true)
    (hb : entryOk dest cr b = false) (fs : FS) :
    extractLoop dest ov cr ch fs (pre ++ b :: rest) =
      ((extractLoop dest ov cr ch fs pre).1, some b.filename) := by
  rw [extractLoop_append]
  have hnone := snd_extractLoop_all_ok dest ov cr ch pre hpre fs
  rcases hq : extractLoop dest ov cr ch fs pre with ⟨fs1, r⟩
  rw [hq] at hnone
  simp only at hnone
  subst hnone
  have h1 : stripRoot cr b.filename ≠ "" := by
    intro hc
    simp [entryOk, effName, hc] at hb
  have h2 : is_within_directory dest (joinpath dest (stripRoot cr b.filename)) = false := by
    by_contra hc
    rw [Bool.not_eq_false] at hc
    simp [entryOk, effName, hc] at hb
  simp only [extractLoop, processEntry_reject dest ov cr ch fs1 b h1 h2]

theorem exists_first_bad (ms : List ZipEntry)
    (h : ¬ ∀ m ∈ ms, entryOk dest cr m = true) :
    ∃ pre b rest, ms = pre ++ b :: rest ∧ (∀ m ∈ pre, entryOk dest cr m = true) ∧
      entryOk dest cr b = false := by
  induction ms with
  | nil => exact absurd (by simp) h
  | cons m ms ih =>
    by_cases hm : entryOk dest cr m = true
    · by_cases hms : ∀ x ∈ ms, entryOk dest cr x = true
      · exact absurd (by simpa [hm] using hms) h
      · obtain ⟨pre, b, rest, heq, hpre, hb⟩ := ih hms
        exact ⟨m :: pre, b, rest, by simp [heq], by simpa [hm] using hpre, hb⟩
    · exact ⟨[], m, ms, rfl, by simp, by simpa using hm⟩

end LoopLemmas

/-- Last content written to a path by a run of entries under
`overwrite=true` (later entries override), with an accumulator for earlier
writes. -/
def lastWrite (dest : List String) (cr : String) (acc : Option (List Nat)) :
    List ZipEntry → List String → Option (List Nat)
  | [], _ => acc
  | m :: ms, q =>
    lastWrite dest cr
      (if writesFile dest cr m = true ∧ entryTarget dest cr m = q then some m.content else acc)
      ms q

section CharLemmas

variable (dest : List String) (ov : Bool) (cr : String) (ch : List String → Nat → Bool)

theorem lastWrite_acc (ms : List ZipEntry) (q : List String) (acc : Option (List Nat)) :
    lastWrite dest cr acc ms q =
      match lastWrite dest cr none ms q with
      | some c => some c
      | none => acc := by
  induction ms generalizing acc with
  | nil => simp [lastWrite]
  | cons m ms ih =>
    simp only [lastWrite]
    rw [ih]
    conv_rhs => rw [ih]
    cases hlw : lastWrite dest cr none ms q with
    | some c => simp
    | none =>
      by_cases h : writesFile dest cr m = true ∧ entryTarget dest cr m = q
      · simp [h]
      · simp [h]

theorem lookupFile_extractLoop_overwrite (ms : List ZipEntry)
    (h : ∀ m ∈ ms, entryOk dest cr m = true) (fs : FS) (q : List String) :
    ((extractLoop dest true cr ch fs ms).1).lookupFile q =
      match lastWrite dest cr none ms q with
      | some c => some c
      | none => fs.lookupFile q := by
  induction ms generalizing fs with
  | nil => simp [extractLoop, lastWrite]
  | cons m ms ih =>
    rw [extractLoop_ok_step dest true cr ch m ms fs (h m (List.mem_cons_self m ms))]
    rw [ih (fun x hx => h x (List.mem_cons_of_mem m hx))]
    rw [lookupFile_processEntry_overwrite]
    conv_rhs =>
      rw [show lastWrite dest cr none (m :: ms) q =
            lastWrite dest cr
              (if writesFile dest cr m = true ∧ entryTarget dest cr m = q then some m.content
               else none) ms q from rfl,
        lastWrite_acc]
    cases hlw : lastWrite dest cr none ms q with
    | some c => simp
    | none =>
      by_cases hw : writesFile dest cr m = true ∧ entryTarget dest cr m = q
      · simp [hw]
      · simp [hw]

theorem mem_dirs_extractLoop (ms : List ZipEntry)
    (h : ∀ m ∈ ms, entryOk dest cr m = true) (fs : FS) (q : List String) :
    (q ∈ (extractLoop dest ov cr ch fs ms).1.dirs) ↔
      ((∃ m ∈ ms, q ∈ entryDirs dest cr m) ∨ q ∈ fs.dirs) := by
  induction ms generalizing fs with
  | nil => simp [extractLoop]
  | cons m ms ih =>
    rw [extractLoop_ok_step dest ov cr ch m ms fs (h m (List.mem_cons_self m ms))]
    rw [ih (fun x hx => h x (List.mem_cons_of_mem m hx))]
    rw [mem_dirs_processEntry]
    constructor
    · rintro (⟨x, hx, hq⟩ | hq | hq)
      · exact Or.inl ⟨x, List.mem_cons_of_mem m hx, hq⟩
      · exact Or.inl ⟨m, List.mem_cons_self m ms, hq⟩
      · exact Or.inr hq
    · rintro (⟨x, hx, hq⟩ | hq)
      · rcases List.mem_cons.mp hx with hx | hx
        · subst hx; exact Or.inr (Or.inl hq)
        · exact Or.inl ⟨x, hx, hq⟩
      · exact Or.inr (Or.inr hq)

theorem existsPath_extractLoop (ms : List ZipEntry) (fs : FS) (q : List String)
    (h : fs.existsPath q = true) :
    (extractLoop dest ov cr ch fs ms).1.existsPath q = true := by
  induction ms generalizing fs with
  | nil => simpa [extractLoop] using h
  | cons m ms ih =>
    rcases hp : processEntry dest ov cr ch fs m with ⟨fs1, r⟩
    have hmono := existsPath_processEntry dest ov cr ch fs m q h
    rw [hp] at hmono
    cases r with
    | none =>
      simp only [extractLoop, hp]
      exact ih fs1 hmono
    | some e =>
      simp only [extractLoop, hp]
      exact hmono

end CharLemmas

/-- Resolved targets of the entries that reach the file-writing branch. -/
def fileTargets (dest : List String) (cr : String) (ms : List ZipEntry) : List (List String) :=
  (ms.filter fun m => writesFile dest cr m).map fun m => entryTarget dest cr m

section NoOverwriteLemmas

variable (dest : List String) (ov : Bool) (cr : String) (ch : List String → Nat → Bool)

theorem lookupFile_processEntry_false (fs : FS) (m : ZipEntry) (p : List String)
    (hex : writesFile dest cr m = true → fs.existsPath (entryTarget dest cr m) = true) :
    ((processEntry dest false cr ch fs m).1).lookupFile p = fs.lookupFile p := by
  by_cases h1 : stripRoot cr m.filename = ""
  · rw [processEntry_emptyName dest false cr ch fs m h1]
  by_cases h2 : is_within_directory dest (joinpath dest (stripRoot cr m.filename)) = true
  · by_cases h3 : m.isDirEntry = true
    · rw [processEntry_dir dest false cr ch fs m h1 h2 h3]
      rfl
    · rw [Bool.not_eq_true] at h3
      have hw : writesFile dest cr m = true := by simp [writesFile, effName, h1, h2, h3]
      have h4 : (fs.mkdirParents (entryTarget dest cr m).dropLast).existsPath (entryTarget dest cr m) = true :=
        existsPath_mkdirParents fs _ _ (hex hw)
      rw [processEntry_file_skip dest false cr ch fs m h1 h2 h3 h4 rfl]
      rfl
  · rw [Bool.not_eq_true] at h2
    rw [processEntry_reject dest false cr ch fs m h1 h2]

theorem fileTargets_exist (ms : List ZipEntry) :
    ∀ (fs : FS), (∀ m ∈ ms, entryOk dest cr m = true) →
      ∀ q ∈ fileTargets dest cr ms, ((extractLoop dest ov cr ch fs ms).1).existsPath q = true := by
  induction ms with
  | nil => intro fs _ q hq; simp [fileTargets] at hq
  | cons m ms ih =>
    intro fs h q hq
    simp only [fileTargets, List.mem_map, List.mem_filter] at hq
    obtain ⟨x, ⟨hxmem, hxw⟩, hxq⟩ := hq
    rw [extractLoop_ok_step dest ov cr ch m ms fs (h m (List.mem_cons_self m ms))]
    rcases List.mem_cons.mp hxmem with hx | hx
    · subst hx
      subst hxq
      exact existsPath_extractLoop dest ov cr ch ms _ _
        (existsPath_target_processEntry dest ov cr ch fs x hxw)
    · apply ih _ (fun y hy => h y (List.mem_cons_of_mem m hy))
      simp only [fileTargets, List.mem_map, List.mem_filter]
      exact ⟨x, ⟨hx, hxw⟩, hxq⟩

theorem lookupFile_extractLoop_false (ms : List ZipEntry) :
    ∀ (fs : FS), (∀ m ∈ ms, entryOk dest cr m = true) →
      (∀ q ∈ fileTargets dest cr ms, fs.existsPath q = true) →
      ∀ p, ((extractLoop dest false cr ch fs ms).1).lookupFile p = fs.lookupFile p := by
  induction ms with
  | nil => intro fs _ _ p; simp [extractLoop]
  | cons m ms ih =>
    intro fs h hex p
    have hm := h m (List.mem_cons_self m ms)
    have hexm : writesFile dest cr m = true → fs.existsPath (entryTarget dest cr m) = true := by
      intro hw
      apply hex
      simp only [fileTargets, List.mem_map, List.mem_filter]
      exact ⟨m, ⟨List.mem_cons_self m ms, hw⟩, rfl⟩
    have hex2 : ∀ q ∈ fileTargets dest cr ms,
        ((processEntry dest false cr ch fs m).1).existsPath q = true := by
      intro q hq
      apply existsPath_processEntry
      apply hex
      simp only [fileTargets, List.mem_map, List.mem_filter] at hq ⊢
      obtain ⟨x, ⟨hx, hw⟩, hxq⟩ := hq
      exact ⟨x, ⟨List.mem_cons_of_mem m hx, hw⟩, hxq⟩
    rw [extractLoop_ok_step dest false cr ch m ms fs hm,
      ih _ (fun y hy => h y (List.mem_cons_of_mem m hy)) hex2 p,
      lookupFile_processEntry_false dest cr ch fs m p hexm]

end NoOverwriteLemmas

theorem perms_setFile (fs : FS) (p : List String) (c : List Nat) :
    (fs.setFile p c).perms = fs.perms := rfl

theorem perms_mkdirParents (fs : FS) (p : List String) :
    (fs.mkdirParents p).perms = fs.perms := rfl

theorem lookupPerm_setPerm_self (fs : FS) (p : List String) (a : Nat) :
    (fs.setPerm p a).lookupPerm p = some a := by
  simp [FS.setPerm, FS.lookupPerm]

theorem existsPath_congr (fs1 fs2 : FS) (q : List String)
    (hf : fs1.files = fs2.files) (hd : fs1.dirs = fs2.dirs) :
    fs1.existsPath q = fs2.existsPath q := by
  simp [FS.existsPath, hf, hd]

section ChmodLemmas

variable (dest : List String) (ov : Bool) (cr : String)

theorem processEntry_chmod_indep (ch1 ch2 : List String → Nat → Bool)
    (fs1 fs2 : FS) (m : ZipEntry)
    (hf : fs1.files = fs2.files) (hd : fs1.dirs = fs2.dirs) :
    (processEntry dest ov cr ch1 fs1 m).1.files = (processEntry dest ov cr ch2 fs2 m).1.files ∧
    (processEntry dest ov cr ch1 fs1 m).1.dirs = (processEntry dest ov cr ch2 fs2 m).1.dirs ∧
    (processEntry dest ov cr ch1 fs1 m).2 = (processEntry dest ov cr ch2 fs2 m).2 := by
  by_cases h1 : stripRoot cr m.filename = ""
  · rw [processEntry_emptyName dest ov cr ch1 fs1 m h1,
      processEntry_emptyName dest ov cr ch2 fs2 m h1]
    exact ⟨hf, hd, rfl⟩
  by_cases h2 : is_within_directory dest (joinpath dest (stripRoot cr m.filename)) = true
  · by_cases h3 : m.isDirEntry = true
    · rw [processEntry_dir dest ov cr ch1 fs1 m h1 h2 h3,
        processEntry_dir dest ov cr ch2 fs2 m h1 h2 h3]
      exact ⟨hf, by simp [FS.mkdirParents, hd], rfl⟩
    · rw [Bool.not_eq_true] at h3
      have hmk : ∀ q, (fs1.mkdirParents (entryTarget dest cr m).dropLast).existsPath q =
          (fs2.mkdirParents (entryTarget dest cr m).dropLast).existsPath q := by
        intro q
        exact existsPath_congr _ _ q hf (by simp [FS.mkdirParents, hd])
      by_cases h4 : (fs1.mkdirParents (entryTarget dest cr m).dropLast).existsPath (entryTarget dest cr m) = true
          ∧ ov = false
      · have h4b : (fs2.mkdirParents (entryTarget dest cr m).dropLast).existsPath (entryTarget dest cr m) = true
            ∧ ov = false := ⟨(hmk _).symm.trans h4.1, h4.2⟩
        rw [processEntry_file_skip dest ov cr ch1 fs1 m h1 h2 h3 h4.1 h4.2,
          processEntry_file_skip dest ov cr ch2 fs2 m h1 h2 h3 h4b.1 h4b.2]
        exact ⟨hf, by simp [FS.mkdirParents, hd], rfl⟩
      · have h4b : ¬ ((fs2.mkdirParents (entryTarget dest cr m).dropLast).existsPath (entryTarget dest cr m) = true
            ∧ ov = false) := by
          intro hc
          exact h4 ⟨(hmk _).trans hc.1, hc.2⟩
        rw [processEntry_file_write dest ov cr ch1 fs1 m h1 h2 h3 h4,
          processEntry_file_write dest ov cr ch2 fs2 m h1 h2 h3 h4b]
        by_cases h5a : unixAttr m ≠ 0 ∧ ch1 (entryTarget dest cr m) (unixAttr m) = true
        · rw [if_pos h5a]
          by_cases h5b : unixAttr m ≠ 0 ∧ ch2 (entryTarget dest cr m) (unixAttr m) = true
          · rw [if_pos h5b]
            exact ⟨by simp [FS.setPerm, FS.setFile, FS.mkdirParents, hf],
              by simp [FS.setPerm, FS.setFile, FS.mkdirParents, hd], rfl⟩
          · rw [if_neg h5b]
            exact ⟨by simp [FS.setPerm, FS.setFile, FS.mkdirParents, hf],
              by simp [FS.setPerm, FS.setFile, FS.mkdirParents, hd], rfl⟩
        · rw [if_neg h5a]
          by_cases h5b : unixAttr m ≠ 0 ∧ ch2 (entryTarget dest cr m) (unixAttr m) = true
          · rw [if_pos h5b]
            exact ⟨by simp [FS.setPerm, FS.setFile, FS.mkdirParents, hf],
              by simp [FS.setPerm, FS.setFile, FS.mkdirParents, hd], rfl⟩
          · rw [if_neg h5b]
            exact ⟨by simp [FS.setFile, FS.mkdirParents, hf],
              by simp [FS.setFile, FS.mkdirParents, hd], rfl⟩
  · rw [Bool.not_eq_true] at h2
    rw [processEntry_reject dest ov cr ch1 fs1 m h1 h2,
      processEntry_reject dest ov cr ch2 fs2 m h1 h2]
    exact ⟨hf, hd, rfl⟩

theorem extractLoop_chmod_indep (ch1 ch2 : List String → Nat → Bool) (ms : List ZipEntry) :
    ∀ (fs1 fs2 : FS), fs1.files = fs2.files → fs1.dirs = fs2.dirs →
      (extractLoop dest ov cr ch1 fs1 ms).1.files = (extractLoop dest ov cr ch2 fs2 ms).1.files ∧
      (extractLoop dest ov cr ch1 fs1 ms).1.dirs = (extractLoop dest ov cr ch2 fs2 ms).1.dirs ∧
      (extractLoop dest ov cr ch1 fs1 ms).2 = (extractLoop dest ov cr ch2 fs2 ms).2 := by
  induction ms with
  | nil => intro fs1 fs2 hf hd; exact ⟨hf, hd, rfl⟩
  | cons m ms ih =>
    intro fs1 fs2 hf hd
    obtain ⟨sf, sd, ss⟩ := processEntry_chmod_indep dest ov cr ch1 ch2 fs1 fs2 m hf hd
    rcases hp1 : processEntry dest ov cr ch1 fs1 m with ⟨g1, r1⟩
    rcases hp2 : processEntry dest ov cr ch2 fs2 m with ⟨g2, r2⟩
    rw [hp1, hp2] at sf sd ss
    simp only at sf sd ss
    subst ss
    cases r1 with
    | none =>
      simp only [extractLoop, hp1, hp2]
      exact ih g1 g2 sf sd
    | some e =>
      simp only [extractLoop, hp1, hp2]
      exact ⟨sf, sd, by simp⟩

end ChmodLemmas

theorem dedup_all_eq {α : Type} [DecidableEq α] (l : List α) (a : α)
    (hne : l ≠ []) (hall : ∀ x ∈ l, x = a) : l.dedup = [a] := by
  induction l with
  | nil => exact absurd rfl hne
  | cons x xs ih =>
    have hx : x = a := hall x (List.mem_cons_self x xs)
    subst hx
    cases xs with
    | nil => simp
    | cons y ys =>
      have hy : y = x := (hall y (List.mem_cons_of_mem x (List.mem_cons_self y ys))).trans
        (hall x (List.mem_cons_self x (y :: ys))).symm
      have hmem : x ∈ y :: ys := by rw [hy]; exact List.mem_cons_self x ys
      rw [List.dedup_cons_of_mem hmem]
      exact ih (by simp) (fun z hz => hall z (List.mem_cons_of_mem x hz))

theorem commonRoot_keep (members : List ZipEntry) :
    computeCommonRoot true members = "" := rfl

theorem commonRoot_no_files (members : List ZipEntry)
    (h : members.filter fileNamed = []) :
    computeCommonRoot false members = "" := by
  unfold computeCommonRoot
  rw [h]
  simp

theorem commonRoot_uniform (members : List ZipEntry) (seg : String)
    (hne : members.filter fileNamed ≠ [])
    (hall : ∀ m ∈ members, fileNamed m = true → topSeg m.filename = seg) :
    computeCommonRoot false members = seg ++ "/" := by
  unfold computeCommonRoot
  have hd : ((members.filter fileNamed).map fun p => topSeg p.filename).dedup = [seg] := by
    apply dedup_all_eq
    · simp [hne]
    · intro x hx
      obtain ⟨m, hm, hxm⟩ := List.mem_map.mp hx
      obtain ⟨hmem, hfn⟩ := List.mem_filter.mp hm
      rw [← hxm]
      exact hall m hmem hfn
  rw [hd]
  simp

theorem commonRoot_two_tops (members : List ZipEntry) (m1 m2 : ZipEntry)
    (hm1 : m1 ∈ members) (hm2 : m2 ∈ members)
    (hf1 : fileNamed m1 = true) (hf2 : fileNamed m2 = true)
    (hne : topSeg m1.filename ≠ topSeg m2.filename) :
    computeCommonRoot false members = "" := by
  unfold computeCommonRoot
  have h1 : topSeg m1.filename ∈ ((members.filter fileNamed).map fun p => topSeg p.filename) :=
    List.mem_map.mpr ⟨m1, List.mem_filter.mpr ⟨hm1, hf1⟩, rfl⟩
  have h2 : topSeg m2.filename ∈ ((members.filter fileNamed).map fun p => topSeg p.filename) :=
    List.mem_map.mpr ⟨m2, List.mem_filter.mpr ⟨hm2, hf2⟩, rfl⟩
  rcases hdd : ((members.filter fileNamed).map fun p => topSeg p.filename).dedup with _ | ⟨t, ts⟩
  · simp [hdd]
  · cases ts with
    | nil =>
      have e1 : topSeg m1.filename = t := by
        have := List.mem_dedup.mpr h1
        rw [hdd] at this
        simpa using this
      have e2 : topSeg m2.filename = t := by
        have := List.mem_dedup.mpr h2
        rw [hdd] at this
        simpa using this
      exact absurd (e1.trans e2.symm) hne
    | cons t2 ts2 => simp [hdd]

theorem splitPathCh_sep (pre tail : List Char) (h : '/' ∉ pre) :
    splitPathCh (pre ++ '/' :: tail) = pre :: splitPathCh tail := by
  induction pre with
  | nil => simp [splitPathCh]
  | cons c cs ih =>
    have hc : c ≠ '/' := fun hc => h (hc ▸ List.mem_cons_self c cs)
    have hcs : '/' ∉ cs := fun hm => h (List.mem_cons_of_mem c hm)
    simp only [List.cons_append, splitPathCh, if_neg hc, List.append_eq, ih hcs]

theorem topSeg_sep (seg : String) (r : List Char) (h : '/' ∉ seg.data) :
    topSeg (String.mk (seg.data ++ '/' :: r)) = seg := by
  unfold topSeg splitPath
  rw [show (String.mk (seg.data ++ '/' :: r)).data = seg.data ++ '/' :: r from rfl]
  rw [splitPathCh_sep seg.data r h]
  rfl

theorem strStartsWith_append (p : String) (r : List Char) :
    strStartsWith (String.mk (p.data ++ r)) p = true := by
  unfold strStartsWith
  rw [show (String.mk (p.data ++ r)).data = p.data ++ r from rfl]
  exact List.isPrefixOf_iff_prefix.mpr (List.prefix_append p.data r)

theorem strDrop_append (p : String) (r : List Char) :
    strDrop (String.mk (p.data ++ r)) (strLen p) = String.mk r := by
  unfold strDrop strLen
  rw [show (String.mk (p.data ++ r)).data = p.data ++ r from rfl]
  rw [List.drop_left]

theorem strStartsWith_decompose (n p : String) (h : strStartsWith n p = true) :
    ∃ r : List Char, n.data = p.data ++ r := by
  unfold strStartsWith at h
  obtain ⟨r, hr⟩ := List.isPrefixOf_iff_prefix.mp h
  exact ⟨r, hr.symm⟩

theorem stripRoot_not_started (cr name : String) (h : strStartsWith name cr = false) :
    stripRoot cr name = name := by
  unfold stripRoot
  rw [if_neg]
  intro hc
  rw [hc.2] at h
  exact Bool.true_eq_false.mp h

theorem stripRoot_empty (name : String) : stripRoot "" name = name := by
  unfold stripRoot
  rw [if_neg]
  intro hc
  exact hc.1 rfl

theorem stripRoot_append (cr : String) (r : List Char) (h : cr ≠ "") :
    stripRoot cr (String.mk (cr.data ++ r)) = String.mk r := by
  unfold stripRoot
  rw [if_pos ⟨h, strStartsWith_append cr r⟩]
  exact strDrop_append cr r

/-! Concrete states used by the closed theorems below. -/

/-- A freshly initialised filesystem whose destination directory `/d/site`
already exists. -/
def siteFS : FS := ⟨[["d", "site"], ["d"], []], [], []⟩

/-- A chmod oracle on which every permission change succeeds. -/
def chmodAlways : List String → Nat → Bool := fun _ _ => true

/-- Claim C1: the spec demands that every written entry's canonical target
lie component-wise within the canonical destination and that containment is
never decided by a raw string-prefix comparison.  The code violates this:
`is_within_directory` compares `str(target).startswith(str(directory))`, so
the entry `../site-evil/pwn.txt` extracted to destination `/d/site` passes
the check, the extraction reports success, and the file is written at
`/d/site-evil/pwn.txt`, which is not component-wise within `/d/site`. -/
theorem c1_containment_code_bug :
    is_within_directory ["d", "site"] (joinpath ["d", "site"] "../site-evil/pwn.txt") = true
    ∧ (safe_extract [⟨"../site-evil/pwn.txt", 0, [104, 105]⟩] ["d", "site"] false true
        chmodAlways siteFS).2 = none
    ∧ (safe_extract [⟨"../site-evil/pwn.txt", 0, [104, 105]⟩] ["d", "site"] false true
        chmodAlways siteFS).1.lookupFile ["d", "site-evil", "pwn.txt"] = some [104, 105]
    ∧ componentWiseWithin ["d", "site"] ["d", "site-evil", "pwn.txt"] = false := by
  decide

/-- Claim C2, counterexample: as stated, the claim quantifies over every
entry whose resolved target does not lie within the resolved destination.
The entry `../site-evil2/a.txt` resolves to `/d/site-evil2/a.txt`, outside
the destination `/d/site`, yet extraction does not abort and writes the
file. -/
theorem c2_counterexample :
    componentWiseWithin ["d", "site"]
        (resolveComponents (joinpath ["d", "site"] "../site-evil2/a.txt")) = false
    ∧ (safe_extract [⟨"../site-evil2/a.txt", 0, [65]⟩] ["d", "site"] false true
        chmodAlways siteFS).2 = none
    ∧ (safe_extract [⟨"../site-evil2/a.txt", 0, [65]⟩] ["d", "site"] false true
        chmodAlways siteFS).1.lookupFile ["d", "site-evil2", "a.txt"] = some [65] := by
  decide

/-- Claim C2 (amended): for every entry rejected by the implemented
containment check (string-prefix comparison of resolved paths), the
extraction aborts at the first such entry, fails naming the offending
original entry name, performs no filesystem mutation for that entry, and
keeps everything the earlier entries wrote (no rollback); later entries are
not processed. -/
theorem c2_fail_fast (dest : List String) (ov keep_root : Bool)
    (ch : List String → Nat → Bool) (fs : FS) (pre rest : List ZipEntry) (b : ZipEntry)
    (hpre : ∀ m ∈ pre, entryOk dest (computeCommonRoot keep_root (pre ++ b :: rest)) m = true)
    (hname : stripRoot (computeCommonRoot keep_root (pre ++ b :: rest)) b.filename ≠ "")
    (hbad : is_within_directory dest
        (joinpath dest (stripRoot (computeCommonRoot keep_root (pre ++ b :: rest)) b.filename))
        = false) :
    safe_extract (pre ++ b :: rest) dest ov keep_root ch fs =
      ((extractLoop dest ov (computeCommonRoot keep_root (pre ++ b :: rest)) ch fs pre).1,
        some b.filename) := by
  unfold safe_extract
  apply extractLoop_first_bad _ _ _ _ pre b rest hpre _ fs
  simp [entryOk, effName, hname, hbad]

/-- Claim C2, witness: a three-entry archive whose middle entry
`../../etc/passwd` fails the containment check; the run stops there, keeps
the first entry's file, names the offender, and never writes the third. -/
theorem c2_fail_fast_witness :
    safe_extract [⟨"ok.txt", 0, [7]⟩, ⟨"../../etc/passwd", 0, [9]⟩, ⟨"late.txt", 0, [8]⟩]
        ["d", "site"] false true chmodAlways siteFS =
      ((extractLoop ["d", "site"] false
          (computeCommonRoot true
            [⟨"ok.txt", 0, [7]⟩, ⟨"../../etc/passwd", 0, [9]⟩, ⟨"late.txt", 0, [8]⟩])
          chmodAlways siteFS [⟨"ok.txt", 0, [7]⟩]).1,
        some "../../etc/passwd")
    ∧ (safe_extract [⟨"ok.txt", 0, [7]⟩, ⟨"../../etc/passwd", 0, [9]⟩, ⟨"late.txt", 0, [8]⟩]
        ["d", "site"] false true chmodAlways siteFS).1.lookupFile ["d", "site", "ok.txt"] = some [7]
    ∧ (safe_extract [⟨"ok.txt", 0, [7]⟩, ⟨"../../etc/passwd", 0, [9]⟩, ⟨"late.txt", 0, [8]⟩]
        ["d", "site"] false true chmodAlways siteFS).1.lookupFile ["d", "site", "late.txt"] = none := by
  refine ⟨?_, by decide, by decide⟩
  exact c2_fail_fast ["d", "site"] false true chmodAlways siteFS
    [⟨"ok.txt", 0, [7]⟩] [⟨"late.txt", 0, [8]⟩] ⟨"../../etc/passwd", 0, [9]⟩
    (by decide) (by decide) (by decide)

/-- Claim C7: an entry whose name becomes empty after common-root stripping
is skipped: it leaves the filesystem untouched, raises no error, and the
loop continues with the remaining entries. -/
theorem c7_empty_name_skip (dest : List String) (ov : Bool) (cr : String)
    (ch : List String → Nat → Bool) (fs : FS) (m : ZipEntry) (rest : List ZipEntry)
    (h : stripRoot cr m.filename = "") :
    processEntry dest ov cr ch fs m = (fs, none)
    ∧ extractLoop dest ov cr ch fs (m :: rest) = extractLoop dest ov cr ch fs rest := by
  have h1 := processEntry_emptyName dest ov cr ch fs m h
  refine ⟨h1, ?_⟩
  rw [extractLoop_ok_step dest ov cr ch m rest fs (by simp [entryOk, effName, h]), h1]

/-- Claim C7, witness: with common root `project/`, the directory entry
`project/` strips to the empty name and is skipped. -/
theorem c7_empty_name_skip_witness :
    stripRoot "project/" "project/" = ""
    ∧ processEntry ["d", "site"] false "project/" chmodAlways siteFS ⟨"project/", 0, []⟩
        = (siteFS, none)
    ∧ extractLoop ["d", "site"] false "project/" chmodAlways siteFS
        [⟨"project/", 0, []⟩, ⟨"project/a.txt", 0, [1]⟩]
      = extractLoop ["d", "site"] false "project/" chmodAlways siteFS [⟨"project/a.txt", 0, [1]⟩] := by
  refine ⟨by decide, ?_⟩
  exact c7_empty_name_skip ["d", "site"] false "project/" chmodAlways siteFS
    ⟨"project/", 0, []⟩ [⟨"project/a.txt", 0, [1]⟩] (by decide)

/-- Claim C10: the upload endpoint's boolean options are true exactly when
the query-parameter value, lowercased, equals the string `true`; any other
value (including `1`, `yes`, misspellings) and an absent parameter count as
false rather than being rejected. -/
theorem c10_option_parsing :
    (∀ (args : List (String × String)) (p : String × String),
      (args.find? fun q => q.1 == "overwrite") = some p →
      upload_overwrite args = (strToLower p.2 == "true"))
    ∧ (∀ args : List (String × String),
      (args.find? fun q => q.1 == "overwrite") = none → upload_overwrite args = false)
    ∧ (∀ (args : List (String × String)) (p : String × String),
      (args.find? fun q => q.1 == "keep_root") = some p →
      upload_keep_root args = (strToLower p.2 == "true"))
    ∧ (∀ args : List (String × String),
      (args.find? fun q => q.1 == "keep_root") = none → upload_keep_root args = false)
    ∧ upload_overwrite [("overwrite", "TRUE")] = true
    ∧ upload_overwrite [("overwrite", "True")] = true
    ∧ upload_overwrite [("overwrite", "1")] = false
    ∧ upload_overwrite [("overwrite", "yes")] = false
    ∧ upload_overwrite [] = false
    ∧ upload_keep_root [("keep_root", "TRUE")] = true
    ∧ upload_keep_root [("keep_root", "no")] = false
    ∧ upload_keep_root [] = false := by
  refine ⟨?_, ?_, ?_, ?_, by decide, by decide, by decide, by decide, by decide, by decide,
    by decide, by decide⟩
  · intro args p h
    unfold upload_overwrite argsGet
    rw [h]
    simp
  · intro args h
    unfold upload_overwrite argsGet
    rw [h]
    decide
  · intro args p h
    unfold upload_keep_root argsGet
    rw [h]
    simp
  · intro args h
    unfold upload_keep_root argsGet
    rw [h]
    decide

/-- Claim C10, witness: the general clauses applied to concrete parameter
lists. -/
theorem c10_option_parsing_witness :
    upload_overwrite [("a", "x"), ("overwrite", "TRUE")] = true
    ∧ upload_keep_root [("keep_root", "nope")] = false := by
  constructor
  · rw [c10_option_parsing.1 [("a", "x"), ("overwrite", "TRUE")] ("overwrite", "TRUE") (by decide)]
    decide
  · rw [c10_option_parsing.2.2.1 [("keep_root", "nope")] ("keep_root", "nope") (by decide)]
    decide

/-- Claim C3: with `keepRoot=true` no common root is computed; with
`keepRoot=false` the common root is the shared first path segment (plus
separator) of the file entries (entries with non-empty names not ending in
a separator) when exactly one distinct such segment exists, and empty when
there are no file entries or at least two distinct first segments —
directory entries are ignored throughout, and an empty result is not an
error. -/
theorem c3_common_root (members : List ZipEntry) (seg : String) :
    computeCommonRoot true members = ""
    ∧ (members.filter fileNamed ≠ [] →
        (∀ m ∈ members, fileNamed m = true → topSeg m.filename = seg) →
        computeCommonRoot false members = seg ++ "/")
    ∧ (members.filter fileNamed = [] → computeCommonRoot false members = "")
    ∧ (∀ m1 ∈ members, ∀ m2 ∈ members, fileNamed m1 = true → fileNamed m2 = true →
        topSeg m1.filename ≠ topSeg m2.filename → computeCommonRoot false members = "") :=
  ⟨commonRoot_keep members,
    fun h1 h2 => commonRoot_uniform members seg h1 h2,
    commonRoot_no_files members,
    fun m1 hm1 m2 hm2 hf1 hf2 hne => commonRoot_two_tops members m1 m2 hm1 hm2 hf1 hf2 hne⟩

/-- Claim C3, witness: an archive with a single top-level directory entry
but files under two differing top segments computes an empty common root,
and a uniform archive computes `top/`. -/
theorem c3_common_root_witness :
    computeCommonRoot false [⟨"top/", 0, []⟩, ⟨"a/x", 0, [1]⟩, ⟨"b/y", 0, [2]⟩] = ""
    ∧ computeCommonRoot false [⟨"top/", 0, []⟩, ⟨"top/x", 0, [1]⟩, ⟨"top/y", 0, [2]⟩] = "top/"
    ∧ computeCommonRoot false [⟨"only-dir/", 0, []⟩] = ""
    ∧ computeCommonRoot true [⟨"top/x", 0, [1]⟩] = "" := by
  refine ⟨?_, ?_, ?_, ?_⟩
  · exact (c3_common_root [⟨"top/", 0, []⟩, ⟨"a/x", 0, [1]⟩, ⟨"b/y", 0, [2]⟩] "").2.2.2
      ⟨"a/x", 0, [1]⟩ (by decide) ⟨"b/y", 0, [2]⟩ (by decide) (by decide) (by decide) (by decide)
  · exact (c3_common_root [⟨"top/", 0, []⟩, ⟨"top/x", 0, [1]⟩, ⟨"top/y", 0, [2]⟩] "top").2.1
      (by decide) (by decide)
  · exact (c3_common_root [⟨"only-dir/", 0, []⟩] "").2.2.1 (by decide)
  · exact (c3_common_root [⟨"top/x", 0, [1]⟩] "").1

/-- Claim C4: in an archive where every entry name begins with a single
shared top-level segment `seg/`, extraction with `keepRoot=false` computes
`seg/` as the common root and strips it from every entry name, while
`keepRoot=true` computes no common root and leaves names intact; a name
that does not start with the common root is used unchanged. -/
theorem c4_root_stripping (members : List ZipEntry) (seg : String)
    (hslash : '/' ∉ seg.data)
    (hall : ∀ m ∈ members, strStartsWith m.filename (seg ++ "/") = true)
    (hfile : ∃ m ∈ members, fileNamed m = true) :
    computeCommonRoot false members = seg ++ "/"
    ∧ (∀ m ∈ members, stripRoot (computeCommonRoot false members) m.filename
        = strDrop m.filename (strLen (seg ++ "/")))
    ∧ computeCommonRoot true members = ""
    ∧ (∀ name, stripRoot (computeCommonRoot true members) name = name)
    ∧ (∀ cr name, strStartsWith name cr = false → stripRoot cr name = name) := by
  have hsd : (seg ++ "/").data = seg.data ++ ['/'] := by
    rw [String.data_append]
  have hdata : ∀ m ∈ members, ∃ r : List Char, m.filename.data = seg.data ++ '/' :: r := by
    intro m hm
    obtain ⟨r, hr⟩ := strStartsWith_decompose m.filename (seg ++ "/") (hall m hm)
    refine ⟨r, ?_⟩
    rw [hr, hsd, List.append_assoc, List.singleton_append]
  have hcr : computeCommonRoot false members = seg ++ "/" := by
    apply commonRoot_uniform members seg
    · obtain ⟨m, hm, hf⟩ := hfile
      intro hc
      have hmem : m ∈ members.filter fileNamed := List.mem_filter.mpr ⟨hm, hf⟩
      rw [hc] at hmem
      exact absurd hmem (List.not_mem_nil m)
    · intro m hm _
      obtain ⟨r, hr⟩ := hdata m hm
      rw [String.ext hr]
      exact topSeg_sep seg r hslash
  refine ⟨hcr, ?_, commonRoot_keep members, fun name => stripRoot_empty name,
    fun cr name h => stripRoot_not_started cr name h⟩
  intro m hm
  rw [hcr]
  obtain ⟨r, hr⟩ := hdata m hm
  have hm2 : m.filename = String.mk ((seg ++ "/").data ++ r) := by
    apply String.ext
    rw [hr, hsd, List.append_assoc, List.singleton_append]
  have hne : seg ++ "/" ≠ "" := by
    intro hc
    have hd := congrArg String.data hc
    rw [hsd] at hd
    simp at hd
  rw [hm2, stripRoot_append (seg ++ "/") r hne, strDrop_append]

/-- Claim C4, witness: the spec's example archive `project/index.html`,
`project/css/a.css`: with `keepRoot=false` the files land at the
destination root, with `keepRoot=true` under `project/`. -/
theorem c4_root_stripping_witness :
    computeCommonRoot false [⟨"project/index.html", 0, [1]⟩, ⟨"project/css/a.css", 0, [2]⟩]
      = "project" ++ "/"
    ∧ stripRoot
        (computeCommonRoot false [⟨"project/index.html", 0, [1]⟩, ⟨"project/css/a.css", 0, [2]⟩])
        "project/index.html" = strDrop "project/index.html" (strLen ("project" ++ "/"))
    ∧ (safe_extract [⟨"project/index.html", 0, [1]⟩, ⟨"project/css/a.css", 0, [2]⟩]
        ["d", "site"] false false chmodAlways siteFS).1.lookupFile
        ["d", "site", "index.html"] = some [1]
    ∧ (safe_extract [⟨"project/index.html", 0, [1]⟩, ⟨"project/css/a.css", 0, [2]⟩]
        ["d", "site"] false false chmodAlways siteFS).1.lookupFile
        ["d", "site", "css", "a.css"] = some [2]
    ∧ (safe_extract [⟨"project/index.html", 0, [1]⟩, ⟨"project/css/a.css", 0, [2]⟩]
        ["d", "site"] false true chmodAlways siteFS).1.lookupFile
        ["d", "site", "project", "index.html"] = some [1]
    ∧ (safe_extract [⟨"project/index.html", 0, [1]⟩, ⟨"project/css/a.css", 0, [2]⟩]
        ["d", "site"] false true chmodAlways siteFS).1.lookupFile
        ["d", "site", "project", "css", "a.css"] = some [2] := by
  refine ⟨?_, ?_, by decide, by decide, by decide, by decide⟩
  · exact (c4_root_stripping [⟨"project/index.html", 0, [1]⟩, ⟨"project/css/a.css", 0, [2]⟩]
      "project" (by decide) (by decide) (by decide)).1
  · exact (c4_root_stripping [⟨"project/index.html", 0, [1]⟩, ⟨"project/css/a.css", 0, [2]⟩]
      "project" (by decide) (by decide) (by decide)).2.1
      ⟨"project/index.html", 0, [1]⟩ (by decide)

/-- Claim C8: for every file entry, all parent directories of the target
(intermediate ones included) are present once the entry is processed and
the entry raises no error; a directory entry is created together with any
absent parents and processing continues; concretely, extracting an archive
whose only entry is the file `a/b/c.txt` leaves directories `a` and `a/b`
under the destination. -/
theorem c8_directory_precreation :
    (∀ (dest : List String) (ov : Bool) (cr : String) (ch : List String → Nat → Bool)
        (fs : FS) (m : ZipEntry),
      stripRoot cr m.filename ≠ "" →
      is_within_directory dest (joinpath dest (stripRoot cr m.filename)) = true →
      m.isDirEntry = false →
      (∀ q ∈ pathPrefixes (entryTarget dest cr m).dropLast,
        q ∈ (processEntry dest ov cr ch fs m).1.dirs)
      ∧ (processEntry dest ov cr ch fs m).2 = none)
    ∧ (∀ (dest : List String) (ov : Bool) (cr : String) (ch : List String → Nat → Bool)
        (fs : FS) (m : ZipEntry),
      stripRoot cr m.filename ≠ "" →
      is_within_directory dest (joinpath dest (stripRoot cr m.filename)) = true →
      m.isDirEntry = true →
      processEntry dest ov cr ch fs m = (fs.mkdirParents (entryTarget dest cr m), none)
      ∧ ∀ q ∈ pathPrefixes (entryTarget dest cr m), q ∈ (processEntry dest ov cr ch fs m).1.dirs)
    ∧ (["d", "site", "a"] ∈ (safe_extract [⟨"a/b/c.txt", 0, [5]⟩] ["d", "site"] false true
          chmodAlways siteFS).1.dirs
       ∧ ["d", "site", "a", "b"] ∈ (safe_extract [⟨"a/b/c.txt", 0, [5]⟩] ["d", "site"] false true
          chmodAlways siteFS).1.dirs
       ∧ (safe_extract [⟨"a/b/c.txt", 0, [5]⟩] ["d", "site"] false true
          chmodAlways siteFS).1.lookupFile ["d", "site", "a", "b", "c.txt"] = some [5]) := by
  refine ⟨?_, ?_, by decide, by decide, by decide⟩
  · intro dest ov cr ch fs m h1 h2 h3
    constructor
    · intro q hq
      rw [mem_dirs_processEntry]
      left
      simpa [entryDirs, effName, h1, h2, h3] using hq
    · rw [snd_processEntry, if_pos]
      simp [entryOk, effName, h1, h2]
  · intro dest ov cr ch fs m h1 h2 h3
    have hd := processEntry_dir dest ov cr ch fs m h1 h2 h3
    refine ⟨hd, ?_⟩
    intro q hq
    rw [hd]
    exact (mem_dirs_mkdirParents fs (entryTarget dest cr m) q).mpr (Or.inl hq)

/-- Claim C8, witness: the file-entry clause at `x/y.txt` and the
directory-entry clause at `sub/dir/`. -/
theorem c8_directory_precreation_witness :
    (["d", "site", "x"] ∈ (processEntry ["d", "site"] false "" chmodAlways siteFS
        ⟨"x/y.txt", 0, [3]⟩).1.dirs
     ∧ (processEntry ["d", "site"] false "" chmodAlways siteFS ⟨"x/y.txt", 0, [3]⟩).2 = none)
    ∧ processEntry ["d", "site"] true "" chmodAlways siteFS ⟨"sub/dir/", 0, []⟩
        = (siteFS.mkdirParents ["d", "site", "sub", "dir"], none) := by
  constructor
  · exact ⟨(c8_directory_precreation.1 ["d", "site"] false "" chmodAlways siteFS
      ⟨"x/y.txt", 0, [3]⟩ (by decide) (by decide) (by decide)).1 ["d", "site", "x"] (by decide),
      (c8_directory_precreation.1 ["d", "site"] false "" chmodAlways siteFS
      ⟨"x/y.txt", 0, [3]⟩ (by decide) (by decide) (by decide)).2⟩
  · exact (c8_directory_precreation.2.1 ["d", "site"] true "" chmodAlways siteFS
      ⟨"sub/dir/", 0, []⟩ (by decide) (by decide) (by decide)).1

section DoubleRunLemmas

variable (dest : List String) (cr : String) (ch : List String → Nat → Bool)

theorem run_again_files_true (ms : List ZipEntry)
    (hok : ∀ m ∈ ms, entryOk dest cr m = true) (fs : FS) (p : List String) :
    ((extractLoop dest true cr ch (extractLoop dest true cr ch fs ms).1 ms).1).lookupFile p
      = ((extractLoop dest true cr ch fs ms).1).lookupFile p := by
  have hT := lookupFile_extractLoop_overwrite dest cr ch ms hok fs p
  have h2 := lookupFile_extractLoop_overwrite dest cr ch ms hok (extractLoop dest true cr ch fs ms).1 p
  rw [h2, hT]
  cases hlw : lastWrite dest cr none ms p with
  | none => simp
  | some c => simp

theorem run_again_files_false (ms : List ZipEntry)
    (hok : ∀ m ∈ ms, entryOk dest cr m = true) (fs : FS) (p : List String) :
    ((extractLoop dest false cr ch (extractLoop dest false cr ch fs ms).1 ms).1).lookupFile p
      = ((extractLoop dest false cr ch fs ms).1).lookupFile p :=
  lookupFile_extractLoop_false dest cr ch ms _ hok
    (fileTargets_exist dest false cr ch ms fs hok) p

theorem run_again_dirs_true (ms : List ZipEntry)
    (hok : ∀ m ∈ ms, entryOk dest cr m = true) (fs : FS) (q : List String) :
    (q ∈ (extractLoop dest true cr ch (extractLoop dest true cr ch fs ms).1 ms).1.dirs)
      ↔ (q ∈ (extractLoop dest true cr ch fs ms).1.dirs) := by
  rw [mem_dirs_extractLoop dest true cr ch ms hok (extractLoop dest true cr ch fs ms).1 q,
    mem_dirs_extractLoop dest true cr ch ms hok fs q, ← or_assoc, or_self_iff]

end DoubleRunLemmas

section DoubleRunTop

variable (dest : List String) (ov : Bool) (cr : String) (ch : List String → Nat → Bool)

theorem double_extract_files_true (members : List ZipEntry) (dest : List String)
    (keep_root : Bool) (ch : List String → Nat → Bool) (fs : FS) (p : List String) :
    (safe_extract members dest true keep_root ch
        (safe_extract members dest true keep_root ch fs).1).1.lookupFile p
      = (safe_extract members dest true keep_root ch fs).1.lookupFile p := by
  unfold safe_extract
  by_cases hok : ∀ m ∈ members, entryOk dest (computeCommonRoot keep_root members) m = true
  · exact run_again_files_true dest (computeCommonRoot keep_root members) ch members hok fs p
  · obtain ⟨pre, b, rest, heq, hpre, hb⟩ :=
      exists_first_bad dest (computeCommonRoot keep_root members) members hok
    set cr0 := computeCommonRoot keep_root members with hcr0
    rw [heq]
    rw [extractLoop_first_bad dest true cr0 ch pre b rest hpre hb fs]
    rw [extractLoop_first_bad dest true cr0 ch pre b rest hpre hb _]
    exact run_again_files_true dest cr0 ch pre hpre fs p

theorem double_extract_files_false (members : List ZipEntry) (dest : List String)
    (keep_root : Bool) (ch : List String → Nat → Bool) (fs : FS) (p : List String) :
    (safe_extract members dest false keep_root ch
        (safe_extract members dest false keep_root ch fs).1).1.lookupFile p
      = (safe_extract members dest false keep_root ch fs).1.lookupFile p := by
  unfold safe_extract
  by_cases hok : ∀ m ∈ members, entryOk dest (computeCommonRoot keep_root members) m = true
  · exact run_again_files_false dest (computeCommonRoot keep_root members) ch members hok fs p
  · obtain ⟨pre, b, rest, heq, hpre, hb⟩ :=
      exists_first_bad dest (computeCommonRoot keep_root members) members hok
    set cr0 := computeCommonRoot keep_root members with hcr0
    rw [heq]
    rw [extractLoop_first_bad dest false cr0 ch pre b rest hpre hb fs]
    rw [extractLoop_first_bad dest false cr0 ch pre b rest hpre hb _]
    exact run_again_files_false dest cr0 ch pre hpre fs p

theorem double_extract_dirs_true (members : List ZipEntry) (dest : List String)
    (keep_root : Bool) (ch : List String → Nat → Bool) (fs : FS) (q : List String) :
    (q ∈ (safe_extract members dest true keep_root ch
        (safe_extract members dest true keep_root ch fs).1).1.dirs)
      ↔ (q ∈ (safe_extract members dest true keep_root ch fs).1.dirs) := by
  unfold safe_extract
  by_cases hok : ∀ m ∈ members, entryOk dest (computeCommonRoot keep_root members) m = true
  · exact run_again_dirs_true dest (computeCommonRoot keep_root members) ch members hok fs q
  · obtain ⟨pre, b, rest, heq, hpre, hb⟩ :=
      exists_first_bad dest (computeCommonRoot keep_root members) members hok
    set cr0 := computeCommonRoot keep_root members with hcr0
    rw [heq]
    rw [extractLoop_first_bad dest true cr0 ch pre b rest hpre hb fs]
    rw [extractLoop_first_bad dest true cr0 ch pre b rest hpre hb _]
    exact run_again_dirs_true dest cr0 ch pre hpre fs q

theorem double_extract_snd_true (members : List ZipEntry) (dest : List String)
    (keep_root : Bool) (ch : List String → Nat → Bool) (fs : FS) :
    (safe_extract members dest true keep_root ch
        (safe_extract members dest true keep_root ch fs).1).2
      = (safe_extract members dest true keep_root ch fs).2 := by
  unfold safe_extract
  by_cases hok : ∀ m ∈ members, entryOk dest (computeCommonRoot keep_root members) m = true
  · rw [snd_extractLoop_all_ok dest true (computeCommonRoot keep_root members) ch members hok,
      snd_extractLoop_all_ok dest true (computeCommonRoot keep_root members) ch members hok]
  · obtain ⟨pre, b, rest, heq, hpre, hb⟩ :=
      exists_first_bad dest (computeCommonRoot keep_root members) members hok
    set cr0 := computeCommonRoot keep_root members with hcr0
    rw [heq]
    rw [extractLoop_first_bad dest true cr0 ch pre b rest hpre hb fs]
    rw [extractLoop_first_bad dest true cr0 ch pre b rest hpre hb _]

end DoubleRunTop

/-- A filesystem that already holds a file `x.txt` with content `[1]`
under the destination `/d/site`. -/
def fsExisting : FS := ⟨[["d", "site"], ["d"], []], [(["d", "site", "x.txt"], [1])], []⟩

/-- Claim C5: a file entry whose target already exists is silently skipped
under `overwrite=false` (no error, every file's content unchanged) and
rewritten with the entry's content under `overwrite=true`; consequently a
second extraction of the same archive leaves all file contents unchanged
under `overwrite=false`, and under `overwrite=true` reproduces exactly the
first run's contents. -/
theorem c5_overwrite_semantics :
    (∀ (dest : List String) (cr : String) (ch : List String → Nat → Bool) (fs : FS) (m : ZipEntry),
      stripRoot cr m.filename ≠ "" →
      is_within_directory dest (joinpath dest (stripRoot cr m.filename)) = true →
      m.isDirEntry = false →
      fs.existsPath (entryTarget dest cr m) = true →
      (processEntry dest false cr ch fs m).2 = none
      ∧ ∀ p, (processEntry dest false cr ch fs m).1.lookupFile p = fs.lookupFile p)
    ∧ (∀ (dest : List String) (cr : String) (ch : List String → Nat → Bool) (fs : FS) (m : ZipEntry),
      stripRoot cr m.filename ≠ "" →
      is_within_directory dest (joinpath dest (stripRoot cr m.filename)) = true →
      m.isDirEntry = false →
      fs.existsPath (entryTarget dest cr m) = true →
      (processEntry dest true cr ch fs m).1.lookupFile (entryTarget dest cr m) = some m.content
      ∧ (processEntry dest true cr ch fs m).2 = none)
    ∧ (∀ (members : List ZipEntry) (dest : List String) (keep_root : Bool)
        (ch : List String → Nat → Bool) (fs : FS) (p : List String),
      (safe_extract members dest false keep_root ch
          (safe_extract members dest false keep_root ch fs).1).1.lookupFile p
        = (safe_extract members dest false keep_root ch fs).1.lookupFile p)
    ∧ (∀ (members : List ZipEntry) (dest : List String) (keep_root : Bool)
        (ch : List String → Nat → Bool) (fs : FS) (p : List String),
      (safe_extract members dest true keep_root ch
          (safe_extract members dest true keep_root ch fs).1).1.lookupFile p
        = (safe_extract members dest true keep_root ch fs).1.lookupFile p) := by
  refine ⟨?_, ?_, ?_, ?_⟩
  · intro dest cr ch fs m h1 h2 h3 hex
    have h4 : (fs.mkdirParents (entryTarget dest cr m).dropLast).existsPath (entryTarget dest cr m)
        = true := existsPath_mkdirParents fs _ _ hex
    rw [processEntry_file_skip dest false cr ch fs m h1 h2 h3 h4 rfl]
    exact ⟨rfl, fun p => rfl⟩
  · intro dest cr ch fs m h1 h2 h3 hex
    have hw : writesFile dest cr m = true := by simp [writesFile, effName, h1, h2, h3]
    constructor
    · rw [lookupFile_processEntry_overwrite dest cr ch fs m (entryTarget dest cr m),
        if_pos ⟨hw, rfl⟩]
    · rw [snd_processEntry dest true cr ch fs m, if_pos]
      simp [entryOk, effName, h1, h2]
  · intro members dest keep_root ch fs p
    exact double_extract_files_false members dest keep_root ch fs p
  · intro members dest keep_root ch fs p
    exact double_extract_files_true members dest keep_root ch fs p

/-- Claim C5, witness: with a pre-existing `x.txt` holding `[1]`, the entry
`x.txt` with content `[2]` is skipped under `overwrite=false` and replaces
the content under `overwrite=true`. -/
theorem c5_overwrite_semantics_witness :
    (processEntry ["d", "site"] false "" chmodAlways fsExisting ⟨"x.txt", 0, [2]⟩).1.lookupFile
        ["d", "site", "x.txt"] = some [1]
    ∧ (processEntry ["d", "site"] false "" chmodAlways fsExisting ⟨"x.txt", 0, [2]⟩).2 = none
    ∧ (processEntry ["d", "site"] true "" chmodAlways fsExisting ⟨"x.txt", 0, [2]⟩).1.lookupFile
        (entryTarget ["d", "site"] "" ⟨"x.txt", 0, [2]⟩) = some [2] := by
  have h := c5_overwrite_semantics.1 ["d", "site"] "" chmodAlways fsExisting ⟨"x.txt", 0, [2]⟩
    (by decide) (by decide) (by decide) (by decide)
  refine ⟨?_, h.1, ?_⟩
  · rw [h.2 ["d", "site", "x.txt"]]
    decide
  · exact (c5_overwrite_semantics.2.1 ["d", "site"] "" chmodAlways fsExisting ⟨"x.txt", 0, [2]⟩
      (by decide) (by decide) (by decide) (by decide)).1

/-- Claim C6: under `overwrite=true`, extracting the same archive twice in
a row produces the same destination tree (same file contents at every path,
same directories) and the same outcome as a single extraction. -/
theorem c6_idempotent_overwrite (members : List ZipEntry) (dest : List String)
    (keep_root : Bool) (ch : List String → Nat → Bool) (fs : FS) :
    (∀ p, (safe_extract members dest true keep_root ch
        (safe_extract members dest true keep_root ch fs).1).1.lookupFile p
      = (safe_extract members dest true keep_root ch fs).1.lookupFile p)
    ∧ (∀ q, (q ∈ (safe_extract members dest true keep_root ch
        (safe_extract members dest true keep_root ch fs).1).1.dirs)
      ↔ (q ∈ (safe_extract members dest true keep_root ch fs).1.dirs))
    ∧ (safe_extract members dest true keep_root ch
        (safe_extract members dest true keep_root ch fs).1).2
      = (safe_extract members dest true keep_root ch fs).2 :=
  ⟨fun p => double_extract_files_true members dest keep_root ch fs p,
    fun q => double_extract_dirs_true members dest keep_root ch fs q,
    double_extract_snd_true members dest keep_root ch fs⟩

/-- A chmod oracle on which every permission change fails. -/
def chmodNever : List String → Nat → Bool := fun _ _ => false

/-- Claim C9: permission application is best-effort — whether the `chmod`
calls succeed or fail never changes the written files, the created
directories or the outcome of the extraction; when a written file entry
carries nonzero permission bits and the call succeeds the bits are
recorded, and when the call fails the failure is swallowed (no error, the
file still written, permissions untouched). -/
theorem c9_chmod_best_effort :
    (∀ (members : List ZipEntry) (dest : List String) (ov keep_root : Bool)
        (ch1 ch2 : List String → Nat → Bool) (fs : FS),
      (safe_extract members dest ov keep_root ch1 fs).1.files
        = (safe_extract members dest ov keep_root ch2 fs).1.files
      ∧ (safe_extract members dest ov keep_root ch1 fs).1.dirs
        = (safe_extract members dest ov keep_root ch2 fs).1.dirs
      ∧ (safe_extract members dest ov keep_root ch1 fs).2
        = (safe_extract members dest ov keep_root ch2 fs).2)
    ∧ (∀ (dest : List String) (cr : String) (ch : List String → Nat → Bool) (fs : FS) (m : ZipEntry),
      stripRoot cr m.filename ≠ "" →
      is_within_directory dest (joinpath dest (stripRoot cr m.filename)) = true →
      m.isDirEntry = false →
      unixAttr m ≠ 0 →
      ch (entryTarget dest cr m) (unixAttr m) = true →
      (processEntry dest true cr ch fs m).1.lookupPerm (entryTarget dest cr m) = some (unixAttr m)
      ∧ (processEntry dest true cr ch fs m).2 = none)
    ∧ (∀ (dest : List String) (cr : String) (ch : List String → Nat → Bool) (fs : FS) (m : ZipEntry),
      stripRoot cr m.filename ≠ "" →
      is_within_directory dest (joinpath dest (stripRoot cr m.filename)) = true →
      m.isDirEntry = false →
      ch (entryTarget dest cr m) (unixAttr m) = false →
      (processEntry dest true cr ch fs m).1.perms = fs.perms
      ∧ (processEntry dest true cr ch fs m).2 = none
      ∧ (processEntry dest true cr ch fs m).1.lookupFile (entryTarget dest cr m)
          = some m.content) := by
  refine ⟨?_, ?_, ?_⟩
  · intro members dest ov keep_root ch1 ch2 fs
    unfold safe_extract
    exact extractLoop_chmod_indep dest ov (computeCommonRoot keep_root members) ch1 ch2
      members fs fs rfl rfl
  · intro dest cr ch fs m h1 h2 h3 ha hch
    rw [processEntry_file_write dest true cr ch fs m h1 h2 h3 (by simp), if_pos ⟨ha, hch⟩]
    exact ⟨lookupPerm_setPerm_self _ _ _, rfl⟩
  · intro dest cr ch fs m h1 h2 h3 hch
    have h5 : ¬ (unixAttr m ≠ 0 ∧ ch (entryTarget dest cr m) (unixAttr m) = true) := by
      intro hc
      rw [hch] at hc
      exact absurd hc.2 (by simp)
    rw [processEntry_file_write dest true cr ch fs m h1 h2 h3 (by simp), if_neg h5]
    refine ⟨rfl, rfl, ?_⟩
    rw [lookupFile_setFile]
    simp

/-- Claim C9, witness: the entry `p.txt` with permission bits `0o755`
records the bits when chmod succeeds, and with a failing chmod still
extracts with no error, no recorded bits. -/
theorem c9_chmod_best_effort_witness :
    (processEntry ["d", "site"] true "" chmodAlways siteFS ⟨"p.txt", 493 <<< 16, [9]⟩).1.lookupPerm
        (entryTarget ["d", "site"] "" ⟨"p.txt", 493 <<< 16, [9]⟩)
      = some (unixAttr ⟨"p.txt", 493 <<< 16, [9]⟩)
    ∧ (processEntry ["d", "site"] true "" chmodNever siteFS ⟨"p.txt", 493 <<< 16, [9]⟩).1.perms
      = siteFS.perms
    ∧ (processEntry ["d", "site"] true "" chmodNever siteFS ⟨"p.txt", 493 <<< 16, [9]⟩).2 = none
    ∧ (safe_extract [⟨"p.txt", 493 <<< 16, [9]⟩] ["d", "site"] true false chmodAlways siteFS).1.files
      = (safe_extract [⟨"p.txt", 493 <<< 16, [9]⟩] ["d", "site"] true false chmodNever siteFS).1.files := by
  refine ⟨?_, ?_, ?_, ?_⟩
  · exact (c9_chmod_best_effort.2.1 ["d", "site"] "" chmodAlways siteFS ⟨"p.txt", 493 <<< 16, [9]⟩
      (by decide) (by decide) (by decide) (by decide) (by decide)).1
  · exact (c9_chmod_best_effort.2.2 ["d", "site"] "" chmodNever siteFS ⟨"p.txt", 493 <<< 16, [9]⟩
      (by decide) (by decide) (by decide) (by decide)).1
  · exact (c9_chmod_best_effort.2.2 ["d", "site"] "" chmodNever siteFS ⟨"p.txt", 493 <<< 16, [9]⟩
      (by decide) (by decide) (by decide) (by decide)).2.1
  · exact (c9_chmod_best_effort.1 [⟨"p.txt", 493 <<< 16, [9]⟩] ["d", "site"] true false
      chmodAlways chmodNever siteFS).1
